import Mathlib

set_option maxHeartbeats 1000000
set_option maxRecDepth 8000

/-
Verification of the OEIS delta-grid / column-stabilization pipeline.

The definitions below are a shallow embedding of the Python sources:
  * 1_15_L.py : a080827, compute_n_end_from_k, compute_max_delta_memopt,
                extract_irregular_prefixes
  * 1_16_L.py : split_on_strict_decrease
  * 1_18.py   : check_consecutive_prime_chain (per-segment core)
  * 1_19.py   : analyze_columns (longest-run stabilization analysis)
  * OEIS_A004431.py : load_oeis_data

Python machine-level behaviour is modelled as follows: Python ints are
Nat/Int (arbitrary precision, as in CPython); fallible code (ValueError
from max() on an empty sequence, TypeError from comparing int with None,
sympy.prevprime on p <= 2, network failure) is modelled with
Option/Except; the float true division in a080827 is modelled
bit-exactly: floatRound rounds an integer to the value of the nearest
IEEE-754 double (53-bit significand, round half to even), and the
OverflowError raised when the quotient reaches 2^1024 is modelled by
`none`.
-/

/-! ## 1_15_L.py -/

/-- Round a positive integer to the value of the nearest IEEE-754
double (53-bit significand, round half to even), written as an exact
integer; every quantity handled here is at least 1, so neither
subnormals nor signs arise.  Below 2^53 every integer is exactly
representable; above, the integer is rounded to a multiple of
2^(bits - 53), where bits = log2 m + 1, with ties going to the even
multiple. -/
def floatRound (m : Nat) : Nat :=
  if m < 2 ^ 53 then m
  else if 2 ^ (Nat.log2 m - 52 - 1) < m % 2 ^ (Nat.log2 m - 52) ∨
      (m % 2 ^ (Nat.log2 m - 52) = 2 ^ (Nat.log2 m - 52 - 1) ∧
        (m / 2 ^ (Nat.log2 m - 52)) % 2 = 1) then
    2 ^ (Nat.log2 m - 52) * (m / 2 ^ (Nat.log2 m - 52) + 1)
  else 2 ^ (Nat.log2 m - 52) * (m / 2 ^ (Nat.log2 m - 52))

/-- OEIS A080827 as the code computes it: `math.ceil((n**2 + 1)/2)`
with CPython semantics.  `(n**2 + 1)/2` is int true division, yielding
the correctly rounded double of the exact quotient — dividing by 2 only
shifts the exponent, so that double is floatRound (n²+1) / 2 — and
raising OverflowError (modelled `none`) when the quotient reaches
2^1024, i.e. when floatRound (n²+1) reaches 2^1025.  `math.ceil` on the
resulting double is then exact: ⌈r/2⌉ = (r+1)/2. -/
def a080827 (n : Nat) : Option Nat :=
  if 2 ^ 1025 ≤ floatRound (n ^ 2 + 1) then none
  else some ((floatRound (n ^ 2 + 1) + 1) / 2)

/-- Evaluation of a generator of optional values: `none` as soon as any
element raises. -/
def tryMap (f : Nat → Option Nat) : List Nat → Option (List Nat)
  | [] => some []
  | k :: rest =>
    match f k, tryMap f rest with
    | some v, some vs => some (v :: vs)
    | _, _ => none

/-- Embeds `compute_n_end_from_k`: Python's `max(2 * a080827(k) for k
in range(4, k_max+1))`.  `none` models both failure paths: ValueError
from `max()` on an empty generator (k_max ≤ 3) and OverflowError
escaping from a080827 at astronomically large k. -/
def compute_n_end_from_k (k_max : Nat) : Option Nat :=
  match tryMap (fun k => (a080827 k).map (fun v => 2 * v))
      (List.range' 4 (k_max - 3)) with
  | none => none
  | some [] => none
  | some (v :: vs) => some (vs.foldl max v)

/-- The pair space enumerated by `compute_max_delta_memopt`:
`for a in range(n_end//2): for b in range(a+1, (n_end - a + 1)//2)`. -/
def deltaPairs (n_end : Nat) : List (Nat × Nat) :=
  (List.range (n_end / 2)).bind (fun a =>
    (List.range' (a + 1) ((n_end - a + 1) / 2 - (a + 1))).map (fun b => (a, b)))

/-- Body of the double loop of `compute_max_delta_memopt`:
`x = b*b - a*a; y = b - a; if y > max_delta[x]: max_delta[x] = y`. -/
def mdStep (md : List Nat) (p : Nat × Nat) : List Nat :=
  if md.getD (p.2 * p.2 - p.1 * p.1) 0 < p.2 - p.1 then
    md.set (p.2 * p.2 - p.1 * p.1) (p.2 - p.1)
  else md

/-- Embeds `compute_max_delta_memopt`: the preallocated array
`[0]*((n_end//2)**2 + 1)` updated over the enumerated pair space. -/
def compute_max_delta_memopt (n_end : Nat) : List Nat :=
  (deltaPairs n_end).foldl mdStep (List.replicate ((n_end / 2) ^ 2 + 1) 0)

/-- The gap values `y = b - a` produced at a fixed difference `x` by the
pairs that `compute_max_delta_memopt` enumerates. -/
def deltaCands (n x : Nat) : List Nat :=
  (deltaPairs n).filterMap (fun p =>
    if p.2 * p.2 - p.1 * p.1 = x then some (p.2 - p.1) else none)

/-- The ascending list of x-indices whose stored gap equals `y`
(`grouped_by_y[y]` in `extract_irregular_prefixes`; appends happen in
increasing x order because `enumerate` walks the array left to right). -/
def groupXs (md : List Nat) (y : Nat) : List Nat :=
  md.enum.filterMap (fun p => if p.2 = y then some p.1 else none)

/-- The sorted list of distinct positive gap values occurring in the
max-delta array (`sorted(grouped_by_y)`). -/
def sortedYs (md : List Nat) : List Nat :=
  ((md.filter (fun y => 0 < y)).dedup).insertionSort (· ≤ ·)

/-- Embeds `extract_irregular_prefixes`.  `max(...)` over the empty
key set raises ValueError, modelled by `none`. -/
def extract_irregular_prefixes (md : List Nat) (k_max : Nat) :
    Option (List (Nat × List Nat)) :=
  match sortedYs md with
  | [] => none
  | y0 :: yrest =>
    let max_len := (yrest.map (fun y => (groupXs md y).length)).foldl max
      (groupXs md y0).length
    some ((List.range max_len).filterMap (fun i =>
      let k := i + 1
      if k ≤ 3 ∨ k_max ≤ k then none
      else
        let col := (sortedYs md).filterMap (fun y => (groupXs md y).get? i)
        let irr := col.enum.filterMap (fun q =>
          if (q.1 + 1) * (q.1 + 1 + 2 * (k - 1)) ≠ q.2 then some q.2 else none)
        if irr = [] then none else some (k, irr)))

/-! ## 1_16_L.py -/

/-- The backward scan of `split_on_strict_decrease`:
`for i in range(n-1, 0, -1): if L[i-1] >= L[i]: split_index = i; break`.
`findSplit L m` checks indices m, m-1, ..., 1. -/
def findSplit (L : List Int) : Nat → Option Nat
  | 0 => none
  | i + 1 =>
    if L.getD (i + 1) 0 ≤ L.getD i 0 then some (i + 1) else findSplit L i

/-- Embeds `split_on_strict_decrease`. -/
def split_on_strict_decrease (L : List Int) : List Int × List Int :=
  match findSplit L (L.length - 1) with
  | none => ([], L)
  | some i => (L.take i, L.drop i)

/-! ## Generic helpers about folded maxima -/

theorem le_foldl_max (l : List Nat) (v : Nat) : v ≤ l.foldl max v := by
  induction l generalizing v with
  | nil => exact Nat.le_refl v
  | cons h t ih => exact Nat.le_trans (Nat.le_max_left v h) (ih (max v h))

theorem mem_le_foldl_max (l : List Nat) (v x : Nat) (hx : x ∈ l) :
    x ≤ l.foldl max v := by
  induction l generalizing v with
  | nil => cases hx
  | cons h t ih =>
    rcases List.mem_cons.mp hx with rfl | hmem
    · exact Nat.le_trans (Nat.le_max_right v x) (le_foldl_max t (max v x))
    · exact ih (max v h) hmem

theorem foldl_max_mem (l : List Nat) (v : Nat) :
    l.foldl max v = v ∨ l.foldl max v ∈ l := by
  induction l generalizing v with
  | nil => exact Or.inl rfl
  | cons h t ih =>
    rcases ih (max v h) with heq | hmem
    · rcases max_choice v h with hv | hh
      · exact Or.inl (by rw [List.foldl_cons, heq, hv])
      · exact Or.inr (by rw [List.foldl_cons, heq, hh]; exact List.mem_cons_self _ _)
    · exact Or.inr (List.mem_cons_of_mem _ hmem)

theorem mem_le_foldr_max (l : List Nat) (x : Nat) (hx : x ∈ l) :
    x ≤ l.foldr max 0 := by
  induction l with
  | nil => cases hx
  | cons h t ih =>
    rcases List.mem_cons.mp hx with rfl | hmem
    · exact Nat.le_max_left _ _
    · exact Nat.le_trans (ih hmem) (Nat.le_max_right h _)

theorem foldr_max_cases (l : List Nat) :
    l.foldr max 0 = 0 ∨ l.foldr max 0 ∈ l := by
  induction l with
  | nil => exact Or.inl rfl
  | cons h t ih =>
    rcases max_choice h (t.foldr max 0) with hh | ht
    · exact Or.inr (by rw [List.foldr_cons, hh]; exact List.mem_cons_self _ _)
    · rcases ih with h0 | hmem
      · exact Or.inl (by rw [List.foldr_cons, ht, h0])
      · exact Or.inr (by rw [List.foldr_cons, ht]; exact List.mem_cons_of_mem _ hmem)

/-! ## Horizon estimator: facts shared by C5 and C6 -/

theorem floatRound_exact {m : Nat} (h : m < 2 ^ 53) : floatRound m = m := by
  unfold floatRound
  rw [if_pos h]

theorem a080827_exact {n : Nat} (h : n ^ 2 + 1 < 2 ^ 53) :
    a080827 n = some ((n ^ 2 + 1 + 1) / 2) := by
  have hp : (2 : Nat) ^ 53 ≤ 2 ^ 1025 :=
    Nat.pow_le_pow_right (by norm_num) (by norm_num)
  unfold a080827
  rw [floatRound_exact h, if_neg (by omega)]

theorem sq_float_safe {k : Nat} (h : k ≤ 94906265) : k ^ 2 + 1 < 2 ^ 53 := by
  have h1 : k ^ 2 ≤ 94906265 ^ 2 := Nat.pow_le_pow_left h 2
  have h2 : (94906265 : Nat) ^ 2 + 1 < 2 ^ 53 := by norm_num
  omega

theorem ceil_term_mono {k k' : Nat} (h : k ≤ k') :
    2 * ((k ^ 2 + 1 + 1) / 2) ≤ 2 * ((k' ^ 2 + 1 + 1) / 2) := by
  have := Nat.pow_le_pow_left h 2
  exact Nat.mul_le_mul_left 2 (Nat.div_le_div_right (by omega))

theorem tryMap_eq_map {f : Nat → Option Nat} :
    ∀ {l : List Nat}, (∀ k ∈ l, (f k).isSome) →
      tryMap f l = some (l.map (fun k => (f k).getD 0)) := by
  intro l
  induction l with
  | nil => intro _; rfl
  | cons a t ih =>
    intro h
    have ha := h a (List.mem_cons_self _ _)
    rcases hfa : f a with _ | u
    · rw [hfa] at ha
      simp at ha
    · unfold tryMap
      rw [hfa, ih (fun k hk => h k (List.mem_cons_of_mem _ hk))]
      simp [hfa]

theorem tryMap_none {f : Nat → Option Nat} :
    ∀ {l : List Nat} {k : Nat}, k ∈ l → f k = none → tryMap f l = none := by
  intro l
  induction l with
  | nil => intro k hk _; cases hk
  | cons a t ih =>
    intro k hk hf
    unfold tryMap
    rcases List.mem_cons.mp hk with rfl | hmem
    · rw [hf]
    · rw [ih hmem hf]
      cases f a <;> rfl

theorem compute_n_end_eq_of {km V : Nat} (h4 : 4 ≤ km)
    (hall : ∀ k, 4 ≤ k → k ≤ km → ∃ u, a080827 k = some u ∧ 2 * u ≤ V)
    (hkm : ∃ u, a080827 km = some u ∧ 2 * u = V) :
    compute_n_end_from_k km = some V := by
  unfold compute_n_end_from_k
  have hmem_iff : ∀ k, k ∈ List.range' 4 (km - 3) ↔ 4 ≤ k ∧ k ≤ km := by
    intro k
    rw [List.mem_range'_1]
    omega
  have hsome : ∀ k ∈ List.range' 4 (km - 3),
      ((fun k => (a080827 k).map (fun v => 2 * v)) k).isSome := by
    intro k hk
    obtain ⟨u, hu, _⟩ := hall k ((hmem_iff k).mp hk).1 ((hmem_iff k).mp hk).2
    simp [hu]
  have htm := tryMap_eq_map hsome
  rw [htm]
  rcases hl : (List.range' 4 (km - 3)).map
      (fun k => ((a080827 k).map (fun v => 2 * v)).getD 0) with _ | ⟨v, vs⟩
  · exfalso
    have hlen := congrArg List.length hl
    simp [List.length_range'] at hlen
    omega
  · show some (vs.foldl max v) = some V
    have hVmem : V ∈ v :: vs := by
      rw [← hl]
      apply List.mem_map.mpr
      obtain ⟨u, hu, h2u⟩ := hkm
      exact ⟨km, (hmem_iff km).mpr ⟨h4, Nat.le_refl km⟩, by simp [hu, h2u]⟩
    have hub : ∀ x ∈ v :: vs, x ≤ V := by
      intro x hx
      rw [← hl] at hx
      rcases List.mem_map.mp hx with ⟨k, hk, rfl⟩
      obtain ⟨u, hu, h2u⟩ := hall k ((hmem_iff k).mp hk).1 ((hmem_iff k).mp hk).2
      simpa [hu] using h2u
    have hle : vs.foldl max v ≤ V := by
      rcases foldl_max_mem vs v with heq | hmem
      · rw [heq]
        exact hub v (List.mem_cons_self _ _)
      · exact hub _ (List.mem_cons_of_mem _ hmem)
    have hge : V ≤ vs.foldl max v := by
      rcases List.mem_cons.mp hVmem with heq | hmem
      · rw [heq]
        exact le_foldl_max vs v
      · exact mem_le_foldl_max vs v _ hmem
    exact congrArg some (Nat.le_antisymm hle hge)

theorem compute_n_end_small {km : Nat} (h : km ≤ 3) :
    compute_n_end_from_k km = none := by
  unfold compute_n_end_from_k
  rw [show km - 3 = 0 by omega]
  rfl

theorem compute_n_end_eq_exact {km : Nat} (h4 : 4 ≤ km) (hs : km ≤ 94906265) :
    compute_n_end_from_k km = some (2 * ((km ^ 2 + 1 + 1) / 2)) := by
  apply compute_n_end_eq_of h4
  · intro k hk1 hk2
    exact ⟨(k ^ 2 + 1 + 1) / 2, a080827_exact (sq_float_safe (by omega)),
      ceil_term_mono hk2⟩
  · exact ⟨(km ^ 2 + 1 + 1) / 2, a080827_exact (sq_float_safe hs), rfl⟩

/-! ## Claim C5: horizon estimator closed form -/

theorem floatRound_boundary :
    floatRound 9007199326062757 = 9007199326062756 := by
  have hlog : Nat.log2 9007199326062757 = 53 := by
    rw [Nat.log2_eq_log_two]
    exact Nat.log_eq_of_pow_le_of_lt_pow (by norm_num) (by norm_num)
  unfold floatRound
  rw [hlog]
  norm_num

theorem a080827_boundary : a080827 94906266 = some 4503599663031378 := by
  have hm : (94906266 : Nat) ^ 2 + 1 = 9007199326062757 := by norm_num
  have hlt : (9007199326062756 : Nat) < 2 ^ 1025 :=
    lt_of_lt_of_le (by norm_num : (9007199326062756 : Nat) < 2 ^ 54)
      (Nat.pow_le_pow_right (by norm_num) (by norm_num))
  unfold a080827
  rw [hm, floatRound_boundary, if_neg (by omega)]

theorem compute_n_end_boundary :
    compute_n_end_from_k 94906266 = some 9007199326062756 := by
  apply compute_n_end_eq_of (by norm_num)
  · intro k hk1 hk2
    rcases Nat.lt_or_ge k 94906266 with hlt | hge
    · refine ⟨(k ^ 2 + 1 + 1) / 2, a080827_exact (sq_float_safe (by omega)), ?_⟩
      have h1 := ceil_term_mono (show k ≤ 94906265 by omega)
      have h2 : 2 * ((94906265 ^ 2 + 1 + 1) / 2) ≤ 9007199326062756 := by
        norm_num
      omega
    · have hkeq : k = 94906266 := by omega
      subst hkeq
      exact ⟨4503599663031378, a080827_boundary, by norm_num⟩
  · exact ⟨4503599663031378, a080827_boundary, by norm_num⟩

/-- Counterexample for C5: at k_max = 94906266 (the first k whose
square leaves the 53-bit-exact range of doubles) the program returns
9007199326062756 — CPython's `(k**2 + 1)/2` rounds the quotient down to
k²/2 before `math.ceil` sees it — while the claimed exact maximum of
2·⌈(k²+1)/2⌉ over [4, k_max] includes the term k²+2 = 9007199326062758
at k = k_max, so the returned value is not that maximum. -/
theorem spec_C5_cex :
    compute_n_end_from_k 94906266 = some 9007199326062756 ∧
    2 * ((94906266 ^ 2 + 1 + 1) / 2) = 9007199326062758 ∧
    (9007199326062756 : Nat) ≠ 9007199326062758 ∧ (4 : Nat) ≤ 94906266 :=
  ⟨compute_n_end_boundary, by norm_num, by norm_num, by norm_num⟩

/-- C5 (amended): for every k_max in the float-exact regime
4 ≤ k_max ≤ 94906265 (i.e. k_max² + 1 < 2^53, where CPython's float
division is exact), `compute_n_end_from_k` returns exactly the maximum
over k in [4, k_max] of 2·⌈(k²+1)/2⌉: the returned value is the term at
k = k_max, it dominates the term at every k in [4, k_max], and k_max
lies in [4, k_max].  Beyond that regime the float rounding deviates
from the exact formula (see the counterexample). -/
theorem spec_C5 (km : Nat) (h4 : 4 ≤ km) (hs : km ≤ 94906265) :
    compute_n_end_from_k km = some (2 * ((km ^ 2 + 1 + 1) / 2)) ∧
    (∀ k, 4 ≤ k → k ≤ km →
      2 * ((k ^ 2 + 1 + 1) / 2) ≤ 2 * ((km ^ 2 + 1 + 1) / 2)) ∧
    4 ≤ km ∧ km ≤ km :=
  ⟨compute_n_end_eq_exact h4 hs, fun k _ hk => ceil_term_mono hk,
   h4, Nat.le_refl km⟩

/-- Witness for C5 at k_max = 10: the returned horizon is 102 ≥ 102. -/
theorem spec_C5_witness :
    compute_n_end_from_k 10 = some (2 * ((10 ^ 2 + 1 + 1) / 2)) ∧
    2 * ((10 ^ 2 + 1 + 1) / 2) = 102 :=
  ⟨(spec_C5 10 (by norm_num) (by norm_num)).1, by norm_num⟩

/-! ## Claim C6: horizon estimator failure modes -/

theorem floatRound_half_le (m : Nat) : m / 2 ≤ floatRound m := by
  unfold floatRound
  split
  · omega
  · rename_i hge
    push_neg at hge
    have h53 : (2 : Nat) ^ 53 = 9007199254740992 := by norm_num
    rw [h53] at hge
    have hm0 : m ≠ 0 := by omega
    have hlogle : 2 ^ Nat.log2 m ≤ m := Nat.log2_self_le hm0
    have hlog53 : 53 ≤ Nat.log2 m := by
      by_contra hcon
      push_neg at hcon
      have hlt := Nat.lt_log2_self (n := m)
      have hle : (2 : Nat) ^ (Nat.log2 m + 1) ≤ 2 ^ 53 :=
        Nat.pow_le_pow_right (by norm_num) (by omega)
      rw [h53] at hle
      omega
    have h52 : (2 : Nat) ^ 52 = 4503599627370496 := by norm_num
    have hsplit : 2 ^ (Nat.log2 m - 52) * 4503599627370496 ≤ m := by
      calc 2 ^ (Nat.log2 m - 52) * 4503599627370496
          = 2 ^ (Nat.log2 m - 52) * 2 ^ 52 := by rw [h52]
        _ = 2 ^ (Nat.log2 m - 52 + 52) := by rw [Nat.pow_add]
        _ ≤ 2 ^ Nat.log2 m := Nat.pow_le_pow_right (by norm_num) (by omega)
        _ ≤ m := hlogle
    have hdm := Nat.div_add_mod m (2 ^ (Nat.log2 m - 52))
    have hmod : m % 2 ^ (Nat.log2 m - 52) < 2 ^ (Nat.log2 m - 52) :=
      Nat.mod_lt _ (by positivity)
    have hflip : 2 ^ (Nat.log2 m - 52) * (m / 2 ^ (Nat.log2 m - 52)) +
        m % 2 ^ (Nat.log2 m - 52) = m := hdm
    split
    · rw [Nat.mul_add, Nat.mul_one]
      omega
    · omega

theorem a080827_none_of_big {n : Nat} (h : 2 ^ 1026 ≤ n ^ 2 + 1) :
    a080827 n = none := by
  unfold a080827
  rw [if_pos]
  have h1 := floatRound_half_le (n ^ 2 + 1)
  have h2 : (2 : Nat) ^ 1026 / 2 = 2 ^ 1025 := by
    rw [Nat.pow_succ]
    exact Nat.mul_div_cancel _ (by norm_num)
  have h3 : (2 : Nat) ^ 1026 / 2 ≤ (n ^ 2 + 1) / 2 := Nat.div_le_div_right h
  omega

theorem a080827_overflow : a080827 (2 ^ 513) = none := by
  apply a080827_none_of_big
  have hsq : ((2 : Nat) ^ 513) ^ 2 = 2 ^ 1026 := by
    have h1 : ((2 : Nat) ^ 513) ^ 2 = 2 ^ (513 * 2) := (Nat.pow_mul 2 513 2).symm
    have h2 : (513 * 2 : Nat) = 1026 := by norm_num
    rw [h1, h2]
  omega

theorem overflow_mem_range : (2 : Nat) ^ 513 ∈ List.range' 4 (2 ^ 513 - 3) := by
  have h4 : (4 : Nat) ≤ 2 ^ 513 := by
    calc (4 : Nat) = 2 ^ 2 := by norm_num
      _ ≤ 2 ^ 513 := Nat.pow_le_pow_right (by norm_num) (by norm_num)
  rw [List.mem_range'_1]
  omega

theorem compute_n_end_none_of_mem {km k : Nat}
    (hmem : k ∈ List.range' 4 (km - 3)) (hk : a080827 k = none) :
    compute_n_end_from_k km = none := by
  have hfail : (fun k => (a080827 k).map (fun v => 2 * v)) k = none := by
    simp [hk]
  unfold compute_n_end_from_k
  rw [tryMap_none hmem hfail]

theorem compute_n_end_overflow : compute_n_end_from_k (2 ^ 513) = none :=
  compute_n_end_none_of_mem overflow_mem_range a080827_overflow

/-- Counterexample for C6: k_max = 3 is a positive integer, yet
`compute_n_end_from_k 3` fails (Python: `max()` over an empty generator
raises ValueError), contradicting "its only failure mode is a
non-positive k_max". -/
theorem spec_C6_cex : 0 < 3 ∧ compute_n_end_from_k 3 = none :=
  ⟨by decide, by decide⟩

/-- C6 (amended): `compute_n_end_from_k` returns a value for every
k_max in [4, 94906265]; it fails for every k_max ≤ 3 — including the
positive values 1, 2, 3 (ValueError from `max()` on the empty generator
`range(4, k_max+1)`) — and it also fails at astronomically large k_max
where the float division overflows (OverflowError; shown here at
k_max = 2^513, whose square quotient reaches 2^1025).  So the failure
modes are k_max < 4 and float overflow, not merely non-positive
k_max. -/
theorem spec_C6 (km : Nat) :
    ((4 ≤ km ∧ km ≤ 94906265) → ∃ v, compute_n_end_from_k km = some v) ∧
    (km ≤ 3 → compute_n_end_from_k km = none) ∧
    compute_n_end_from_k (2 ^ 513) = none :=
  ⟨fun h => ⟨2 * ((km ^ 2 + 1 + 1) / 2), compute_n_end_eq_exact h.1 h.2⟩,
   fun h => compute_n_end_small h, compute_n_end_overflow⟩

/-- Witness for C6: at k_max = 4 a value is returned, at k_max = 3 not. -/
theorem spec_C6_witness :
    (∃ v, compute_n_end_from_k 4 = some v) ∧ compute_n_end_from_k 3 = none :=
  ⟨(spec_C6 4).1 ⟨by norm_num, by norm_num⟩, (spec_C6 3).2.1 (by norm_num)⟩

/-! ## Claim C2: decrease-point splitter -/

theorem findSplit_some {L : List Int} :
    ∀ {m i : Nat}, findSplit L m = some i →
      1 ≤ i ∧ i ≤ m ∧ L.getD i 0 ≤ L.getD (i - 1) 0 ∧
      ∀ j, i < j → j ≤ m → L.getD (j - 1) 0 < L.getD j 0 := by
  intro m
  induction m with
  | zero => intro i h; cases h
  | succ n ih =>
    intro i h
    unfold findSplit at h
    by_cases hc : L.getD (n + 1) 0 ≤ L.getD n 0
    · rw [if_pos hc] at h
      cases h
      refine ⟨by omega, Nat.le_refl _, by simpa using hc, ?_⟩
      intro j hj hj'
      omega
    · rw [if_neg hc] at h
      obtain ⟨h1, h2, h3, h4⟩ := ih h
      refine ⟨h1, by omega, h3, ?_⟩
      intro j hj hj'
      rcases Nat.lt_or_ge j (n + 1) with hlt | hge
      · exact h4 j hj (by omega)
      · have : j = n + 1 := by omega
        subst this
        simpa using not_le.mp hc

theorem findSplit_none {L : List Int} :
    ∀ {m : Nat}, findSplit L m = none →
      ∀ j, 1 ≤ j → j ≤ m → L.getD (j - 1) 0 < L.getD j 0 := by
  intro m
  induction m with
  | zero => intro _ j h1 h2; omega
  | succ n ih =>
    intro h j h1 h2
    unfold findSplit at h
    by_cases hc : L.getD (n + 1) 0 ≤ L.getD n 0
    · rw [if_pos hc] at h; cases h
    · rw [if_neg hc] at h
      rcases Nat.lt_or_ge j (n + 1) with hlt | hge
      · exact ih h j h1 (by omega)
      · have : j = n + 1 := by omega
        subst this
        simpa using not_le.mp hc

theorem chain'_drop_of_incr (L : List Int) (i : Nat)
    (h : ∀ j, i < j → j < L.length → L.getD (j - 1) 0 < L.getD j 0) :
    List.Chain' (· < ·) (L.drop i) := by
  apply List.chain'_iff_get.mpr
  intro t ht
  rw [List.length_drop] at ht
  have h2 : i + t + 1 < L.length := by omega
  have hh := h (i + t + 1) (by omega) h2
  rw [List.getD_eq_getElem _ _ (by omega : i + t + 1 - 1 < L.length),
      List.getD_eq_getElem _ _ h2] at hh
  simp only [Nat.add_sub_cancel] at hh
  simp only [List.get_eq_getElem, List.getElem_drop]
  exact hh

/-- C2: for every list of integers, `split_on_strict_decrease` returns a
pair (left, right) with left ++ right = L, right strictly increasing
(pairwise), and left empty or last of left ≥ head of right; empty and
singleton lists map to ([], L); and [2,3,5,9,8] splits to
([2,3,5,9], [8]). -/
theorem spec_C2 :
    (∀ L : List Int,
      (split_on_strict_decrease L).1 ++ (split_on_strict_decrease L).2 = L ∧
      List.Pairwise (· < ·) (split_on_strict_decrease L).2 ∧
      ((split_on_strict_decrease L).1 = [] ∨
        ∃ a b, (split_on_strict_decrease L).1.getLast? = some a ∧
          (split_on_strict_decrease L).2.head? = some b ∧ b ≤ a)) ∧
    split_on_strict_decrease [] = ([], []) ∧
    (∀ x : Int, split_on_strict_decrease [x] = ([], [x])) ∧
    split_on_strict_decrease [2, 3, 5, 9, 8] = ([2, 3, 5, 9], [8]) := by
  refine ⟨?_, by decide, fun x => rfl, by decide⟩
  intro L
  unfold split_on_strict_decrease
  rcases hf : findSplit L (L.length - 1) with _ | i
  · refine ⟨rfl, ?_, Or.inl rfl⟩
    have := findSplit_none hf
    exact List.chain'_iff_pairwise.mp ((List.drop_zero L) ▸ chain'_drop_of_incr L 0
      (fun j hj hj' => this j (by omega) (by omega)))
  · obtain ⟨h1, h2, h3, h4⟩ := findSplit_some hf
    have hlen : i < L.length := by omega
    refine ⟨List.take_append_drop i L, ?_, Or.inr ?_⟩
    · exact List.chain'_iff_pairwise.mp
        (chain'_drop_of_incr L i (fun j hj hj' => h4 j hj (by omega)))
    · refine ⟨L.getD (i - 1) 0, L.getD i 0, ?_, ?_, h3⟩
      · have htl : (L.take i).length = i := by
          rw [List.length_take]; omega
        rw [List.getLast?_eq_getElem?, htl]
        have : (L.take i)[i - 1]? = L[i - 1]? := List.getElem?_take_of_lt (by omega)
        rw [this, List.getD_eq_get _ _ (by omega : i - 1 < L.length)]
        simp [List.getElem?_eq_getElem (by omega : i - 1 < L.length),
          List.get_eq_getElem]
      · rw [List.head?_drop, List.getD_eq_get _ _ hlen]
        simp [List.getElem?_eq_getElem hlen, List.get_eq_getElem]

/-! ## Claims C1 and C8: the delta-grid generator -/

theorem mem_deltaPairs {n a b : Nat} :
    (a, b) ∈ deltaPairs n ↔ a < n / 2 ∧ a + 1 ≤ b ∧ b < (n - a + 1) / 2 := by
  unfold deltaPairs
  simp only [List.mem_bind, List.mem_map, List.mem_range, List.mem_range'_1,
    Prod.mk.injEq]
  constructor
  · rintro ⟨a', ha', b', hb', rfl, rfl⟩
    omega
  · rintro ⟨h1, h2, h3⟩
    exact ⟨a, h1, b, by omega, rfl, rfl⟩

theorem sq_fold_bound {a b s : Nat} (h : 2 * b + a ≤ 2 * s) :
    b * b ≤ s * s + a * a := by
  zify
  have h1 : (0 : ℤ) ≤ 2 * s - (a + 2 * b) := by
    push_cast
    omega
  have h2 : (0 : ℤ) ≤ 2 * s + (a + 2 * b) := by positivity
  nlinarith [mul_nonneg h1 h2]

theorem deltaPairs_x_le {n : Nat} {p : Nat × Nat} (hp : p ∈ deltaPairs n) :
    p.2 * p.2 - p.1 * p.1 ≤ (n / 2) ^ 2 := by
  obtain ⟨a, b⟩ := p
  rw [mem_deltaPairs] at hp
  obtain ⟨h1, h2, h3⟩ := hp
  have hb : 2 * b + a ≤ 2 * (n / 2) := by omega
  have hsq := sq_fold_bound hb
  simp only [pow_two]
  omega

theorem mdStep_length (md : List Nat) (p : Nat × Nat) :
    (mdStep md p).length = md.length := by
  unfold mdStep
  split <;> simp

theorem getD_set_self {md : List Nat} {x y : Nat} (h : x < md.length) :
    (md.set x y).getD x 0 = y := by
  simp [List.getElem?_set_self h]

theorem getD_set_ne {md : List Nat} {x' x y : Nat} (h : x' ≠ x) :
    (md.set x' y).getD x 0 = md.getD x 0 := by
  simp [List.getElem?_set_ne h]

theorem foldl_mdStep_getD (ps : List (Nat × Nat)) (md : List Nat) (x : Nat)
    (hx : x < md.length)
    (hb : ∀ p ∈ ps, p.2 * p.2 - p.1 * p.1 < md.length) :
    (ps.foldl mdStep md).getD x 0 =
      max (md.getD x 0)
        ((ps.filterMap (fun p =>
          if p.2 * p.2 - p.1 * p.1 = x then some (p.2 - p.1) else none)).foldr
            max 0) := by
  induction ps generalizing md with
  | nil => simp
  | cons p ps ih =>
    rw [List.foldl_cons,
      ih (mdStep md p) (by rw [mdStep_length]; exact hx)
        (fun q hq => by
          rw [mdStep_length]; exact hb q (List.mem_cons_of_mem _ hq))]
    by_cases hpx : p.2 * p.2 - p.1 * p.1 = x
    · have hstep : (mdStep md p).getD x 0 = max (md.getD x 0) (p.2 - p.1) := by
        unfold mdStep
        rw [hpx]
        split
        · rename_i hlt
          rw [getD_set_self hx]
          exact (Nat.max_eq_right (Nat.le_of_lt hlt)).symm
        · rename_i hge
          exact (Nat.max_eq_left (Nat.le_of_not_lt hge)).symm
      rw [hstep, List.filterMap_cons, if_pos hpx, List.foldr_cons, max_assoc]
    · have hstep : (mdStep md p).getD x 0 = md.getD x 0 := by
        unfold mdStep
        split
        · exact getD_set_ne hpx
        · rfl
      rw [hstep, List.filterMap_cons, if_neg hpx]

theorem mdm_getD (n x : Nat) (hx : x ≤ (n / 2) ^ 2) :
    (compute_max_delta_memopt n).getD x 0 = (deltaCands n x).foldr max 0 := by
  unfold compute_max_delta_memopt deltaCands
  rw [foldl_mdStep_getD _ _ x (by simp; omega)
      (fun p hp => by
        simp only [List.length_replicate]
        exact Nat.lt_succ_of_le (deltaPairs_x_le hp))]
  simp

/-- Counterexample for C1: at n_end = 4, the pair (a, b) = (0, 2)
satisfies the claim's stated bounds — a < n_end/2, a < b, and b ≤
(n_end−a+1)/2 with the upper bound inclusive — and has b²−a² = 4 ≤
(n_end/2)², delta b−a = 2; yet the returned array stores 0 at index 4,
so the entry is not the maximum over the claim's pair space. -/
theorem spec_C1_cex :
    (compute_max_delta_memopt 4).getD 4 0 = 0 ∧
    (0 : Nat) < 4 / 2 ∧ (0 : Nat) < 2 ∧ 2 ≤ (4 - 0 + 1) / 2 ∧
    2 * 2 - 0 * 0 = 4 ∧ 4 ≤ (4 / 2) ^ 2 ∧
    ¬ (2 - 0 ≤ (compute_max_delta_memopt 4).getD 4 0) := by
  decide

/-- C1 (amended): with the upper bound on b read exclusively, as the code
enumerates it (a < b < (n_end−a+1)//2), every entry of the array returned
by `compute_max_delta_memopt` is the true maximum of b−a over the pairs
with b²−a² = x, and is 0 when no such pair exists. -/
theorem spec_C1 (n x : Nat) (hx : x ≤ (n / 2) ^ 2) :
    (∀ a b, a < n / 2 → a < b → b < (n - a + 1) / 2 → b * b - a * a = x →
      b - a ≤ (compute_max_delta_memopt n).getD x 0) ∧
    ((compute_max_delta_memopt n).getD x 0 = 0 ∨
      ∃ a b, a < n / 2 ∧ a < b ∧ b < (n - a + 1) / 2 ∧ b * b - a * a = x ∧
        b - a = (compute_max_delta_memopt n).getD x 0) := by
  rw [mdm_getD n x hx]
  constructor
  · intro a b h1 h2 h3 h4
    apply mem_le_foldr_max
    unfold deltaCands
    rw [List.mem_filterMap]
    exact ⟨(a, b), mem_deltaPairs.mpr ⟨h1, by omega, h3⟩, by rw [if_pos h4]⟩
  · rcases foldr_max_cases (deltaCands n x) with h0 | hmem
    · exact Or.inl h0
    · right
      unfold deltaCands at hmem
      rw [List.mem_filterMap] at hmem
      obtain ⟨⟨a, b⟩, hp, hsome⟩ := hmem
      rw [mem_deltaPairs] at hp
      by_cases hax : b * b - a * a = x
      · rw [if_pos hax] at hsome
        exact ⟨a, b, hp.1, by omega, hp.2.2, hax, Option.some_inj.mp hsome⟩
      · rw [if_neg hax] at hsome
        cases hsome

/-- Witness for C1 at n_end = 4, x = 1, pair (0, 1). -/
theorem spec_C1_witness :
    1 - 0 ≤ (compute_max_delta_memopt 4).getD 1 0 ∧
    ((compute_max_delta_memopt 4).getD 1 0 = 0 ∨
      ∃ a b, a < 4 / 2 ∧ a < b ∧ b < (4 - a + 1) / 2 ∧ b * b - a * a = 1 ∧
        b - a = (compute_max_delta_memopt 4).getD 1 0) :=
  ⟨(spec_C1 4 1 (by decide)).1 0 1 (by decide) (by decide) (by decide) (by decide),
   (spec_C1 4 1 (by decide)).2⟩

/-- C8: the preallocated array has length (n_end/2)² + 1, and every pair
(a, b) enumerated by the generator's loops satisfies a² ≤ b² (so the
natural subtraction b·b − a·a is the integer value b²−a²) and produces an
index x = b²−a² strictly below the array length: no out-of-bounds write
occurs. -/
theorem spec_C8 (n : Nat) :
    (compute_max_delta_memopt n).length = (n / 2) ^ 2 + 1 ∧
    ∀ a b, (a, b) ∈ deltaPairs n →
      a * a ≤ b * b ∧
      b * b - a * a < (compute_max_delta_memopt n).length := by
  have hlen : (compute_max_delta_memopt n).length = (n / 2) ^ 2 + 1 := by
    unfold compute_max_delta_memopt
    have : ∀ (ps : List (Nat × Nat)) (md : List Nat),
        (ps.foldl mdStep md).length = md.length := by
      intro ps
      induction ps with
      | nil => intro md; rfl
      | cons p ps ih => intro md; rw [List.foldl_cons, ih, mdStep_length]
    rw [this]
    simp
  refine ⟨hlen, fun a b hp => ⟨?_, ?_⟩⟩
  · have := (mem_deltaPairs.mp hp).2.1
    exact Nat.mul_le_mul (by omega) (by omega)
  · rw [hlen]
    exact Nat.lt_succ_of_le (deltaPairs_x_le hp)

/-- Witness for C8 at n_end = 4 and the enumerated pair (0, 1). -/
theorem spec_C8_witness :
    (compute_max_delta_memopt 4).length = (4 / 2) ^ 2 + 1 ∧
    0 * 0 ≤ 1 * 1 ∧
    1 * 1 - 0 * 0 < (compute_max_delta_memopt 4).length :=
  ⟨(spec_C8 4).1, (spec_C8 4).2 0 1 (by decide)⟩

/-! ## Claim C10: keys and values of extract_irregular_prefixes -/

/-- C10: whenever `extract_irregular_prefixes` returns a mapping (it
raises, modelled `none`, only when the max-delta array has no positive
entry), every key k satisfies 3 < k < k_max and every value list is
non-empty, so formula-perfect columns are absent rather than mapped to
an empty list. -/
theorem spec_C10 (md : List Nat) (km : Nat) (res : List (Nat × List Nat))
    (h : extract_irregular_prefixes md km = some res) :
    ∀ p ∈ res, 3 < p.1 ∧ p.1 < km ∧ p.2 ≠ [] := by
  intro p hp
  unfold extract_irregular_prefixes at h
  rcases hys : sortedYs md with _ | ⟨y0, yrest⟩
  · rw [hys] at h; cases h
  · rw [hys] at h
    simp only [Option.some_inj] at h
    subst h
    rw [List.mem_filterMap] at hp
    obtain ⟨i, _, hf⟩ := hp
    by_cases hk : i + 1 ≤ 3 ∨ km ≤ i + 1
    · rw [if_pos hk] at hf; cases hf
    · rw [if_neg hk] at hf
      split at hf
      · cases hf
      · rename_i hne
        cases hf
        push_neg at hk
        exact ⟨by omega, by omega, hne⟩

/-- Witness for C10 at the max-delta array [1,1,1,1] with k_max = 5,
whose result is [(4, [3])]. -/
theorem spec_C10_witness : 3 < 4 ∧ 4 < 5 ∧ ([3] : List Nat) ≠ [] :=
  spec_C10 [1, 1, 1, 1] 5 [(4, [3])] (by decide) (4, [3]) (by decide)

/-! ## 1_18.py: consecutive-prime-chain classifier -/

/-- Trial-division primality, modelling sympy's notion of a prime. -/
def isPrime (n : Nat) : Bool :=
  decide (2 ≤ n) && (((List.range n).drop 2).all (fun d => n % d != 0))

/-- Embeds `sympy.prevprime`: the largest prime strictly below p.
sympy raises ValueError when p ≤ 2, modelled by `none`. -/
def prevPrime (p : Nat) : Option Nat :=
  ((List.range p).filter isPrime).getLast?

/-- Embeds `max(sympy.factorint(v))`: the largest prime factor of v.
`none` models the skip for |v| ≤ 1 (factorint yields no prime key). -/
def largestPrimeFactor (v : Int) : Option Nat :=
  ((List.range (v.natAbs + 1)).filter
    (fun q => isPrime q && v.natAbs % q == 0)).getLast?

/-- A successful classification: {multiplier k, terminal prime, length}
(the dict stored in `matches[key]`, minus the echoed sequence). -/
structure ChainMatch where
  k : Int
  prime_chain_end : Nat
  length : Nat
deriving Repr, DecidableEq

/-- The backward walk of `check_consecutive_prime_chain`:
`for val in reversed(seq): if val != k*current_prime: break;
current_prime = prevprime(current_prime)`.  The prime is stepped even
after the final element, so `prevprime` failure (p ≤ 2) escapes as an
error exactly as in Python. -/
def chainWalk (k : Int) : Nat → List Int → Except Unit Bool
  | _, [] => Except.ok true
  | p, v :: rest =>
    if v = k * (p : Int) then
      match prevPrime p with
      | none => Except.error ()
      | some q => chainWalk k q rest
    else Except.ok false

/-- The per-segment body of `check_consecutive_prime_chain`, applied to
one right segment `seq = parts['right']`. -/
def check_segment (seq : List Int) : Except Unit (Option ChainMatch) :=
  if seq.length < 2 then Except.ok none
  else
    match seq.getLast? with
    | none => Except.ok none
    | some last_val =>
      match largestPrimeFactor last_val with
      | none => Except.ok none
      | some p =>
        let k := Int.fdiv last_val (p : Int)
        match chainWalk k p seq.reverse with
        | Except.error u => Except.error u
        | Except.ok true => Except.ok (some ⟨k, p, seq.length⟩)
        | Except.ok false => Except.ok none

/-- Embeds `check_consecutive_prime_chain` over the split dictionary
(key, left, right): collects the matching entries in order. -/
def check_consecutive_prime_chain (L_split : List (Nat × List Int × List Int)) :
    Except Unit (List (Nat × ChainMatch)) :=
  L_split.foldlM
    (fun acc e =>
      match check_segment e.2.2 with
      | Except.error u => Except.error u
      | Except.ok none => Except.ok acc
      | Except.ok (some m) => Except.ok (acc ++ [(e.1, m)])) []

/-- Counterexample for C4: on the segment [26, 22, 14] exactly as the
claim states it, the classifier reports no match (the walk starts at the
segment's last element 14 = 2·7 and immediately fails at 22 ≠ 2·5), so
it does not classify it as multiplier 2, terminal prime 13, length 3. -/
theorem spec_C4_cex :
    check_segment [26, 22, 14] = Except.ok none ∧
    check_consecutive_prime_chain [(4, ([2, 3, 5, 9], [26, 22, 14]))] =
      Except.ok [] ∧
    (some (⟨2, 13, 3⟩ : ChainMatch) ≠ (none : Option ChainMatch)) := by
  refine ⟨rfl, rfl, by decide⟩

/-- C4 (amended): the fixture read in the order the splitter produces it
(strictly increasing), [2·7, 2·11, 2·13] = [14, 22, 26], classifies as a
match with multiplier 2, terminal prime 13, and length 3. -/
theorem spec_C4 :
    check_segment [14, 22, 26] = Except.ok (some ⟨2, 13, 3⟩) ∧
    check_consecutive_prime_chain [(4, ([2, 3, 5, 9], [14, 22, 26]))] =
      Except.ok [(4, ⟨2, 13, 3⟩)] := by
  refine ⟨rfl, rfl⟩

/-! ## OEIS_A004431.py: load_oeis_data -/

/-- Python `str.split()` with no arguments: split on runs of
whitespace, discarding empty tokens.  The accumulator holds the current
token reversed. -/
def splitWsAux : List Char → List Char → List String
  | acc, [] => if acc.isEmpty then [] else [⟨acc.reverse⟩]
  | acc, c :: cs =>
    if c.isWhitespace then
      if acc.isEmpty then splitWsAux [] cs
      else ⟨acc.reverse⟩ :: splitWsAux [] cs
    else splitWsAux (c :: acc) cs

/-- Python `str.split()` with no arguments. -/
def pySplit (s : String) : List String := splitWsAux [] s.data

/-- Python `int(token)` on a whitespace-free token: optional sign
followed by one or more decimal digits; `none` models ValueError. -/
def pyInt? (s : String) : Option Int :=
  match s.data with
  | [] => none
  | c :: rest =>
    let digits := if c = '-' ∨ c = '+' then rest else s.data
    if digits = [] ∨ ¬ digits.all Char.isDigit then none
    else
      let v : Nat := digits.foldl (fun a d => a * 10 + (d.toNat - 48)) 0
      some (if c = '-' then -(v : Int) else (v : Int))

/-- One parsed data row: skip comment lines (`startswith("#")`), then
require exactly two integer tokens (`index, value = line.split()`
followed by the two `int` conversions); `none` models the `continue`
taken on ValueError. -/
def parseRow (line : String) : Option (Int × Int) :=
  if line.data.head? = some (Char.ofNat 35) then none
  else
    match pySplit line with
    | [a, b] =>
      match pyInt? a, pyInt? b with
      | some i, some v => some (i, v)
      | _, _ => none
    | _ => none

/-- Python `str.splitlines()`: every newline terminates a line; a
trailing fragment forms a final line; the empty text has no lines. -/
def splitNlAux : List Char → List Char → List String
  | acc, [] => if acc.isEmpty then [] else [⟨acc.reverse⟩]
  | acc, c :: cs =>
    if c = Char.ofNat 10 then ⟨acc.reverse⟩ :: splitNlAux [] cs
    else splitNlAux (c :: acc) cs

/-- Python `str.splitlines()`. -/
def pySplitlines (s : String) : List String := splitNlAux [] s.data

/-- One iteration of the parse loop: `if value not in oeis_data:
oeis_data[value] = index` (first occurrence wins); the dict is an
insertion-ordered association list value → index. -/
def oeisStep (m : List (Int × Int)) (line : String) : List (Int × Int) :=
  match parseRow line with
  | none => m
  | some (i, v) => if m.any (fun e => e.1 == v) then m else m ++ [(v, i)]

/-- Embeds `load_oeis_data`: on fetch failure raise RuntimeError
(`Except.error`); otherwise parse every line after the first
(`for line in lines[1:]`). -/
def load_oeis_data (resp : Except Unit String) :
    Except Unit (List (Int × Int)) :=
  match resp with
  | Except.error _ => Except.error ()
  | Except.ok text =>
    Except.ok (((pySplitlines text).drop 1).foldl oeisStep [])

theorem oeisStep_mono {m : List (Int × Int)} {v : Int} {line : String}
    (h : m.any (fun e => e.1 == v) = true) :
    (oeisStep m line).any (fun e => e.1 == v) = true := by
  unfold oeisStep
  rcases parseRow line with _ | ⟨i, v'⟩
  · exact h
  · dsimp only
    split
    · exact h
    · rw [List.any_append]
      simp [h]

theorem oeisFold_mono {lines : List String} {m : List (Int × Int)} {v : Int}
    (h : m.any (fun e => e.1 == v) = true) :
    (lines.foldl oeisStep m).any (fun e => e.1 == v) = true := by
  induction lines generalizing m with
  | nil => exact h
  | cons l ls ih => exact ih (oeisStep_mono h)

theorem oeisFold_covers {lines : List String} {m : List (Int × Int)}
    {line : String} {i v : Int}
    (hmem : line ∈ lines) (hrow : parseRow line = some (i, v)) :
    (lines.foldl oeisStep m).any (fun e => e.1 == v) = true := by
  induction lines generalizing m with
  | nil => cases hmem
  | cons l ls ih =>
    rcases List.mem_cons.mp hmem with rfl | hmem' 
    · rw [List.foldl_cons]
      apply oeisFold_mono
      unfold oeisStep
      rw [hrow]
      dsimp only
      split
      · assumption
      · rw [List.any_append]
        simp
    · exact ih hmem'

/-- Counterexample for C9: the downloaded table "3 7" consists of a
single well-formed data row, yet the returned mapping is empty — the
parser unconditionally skips the first line (`lines[1:]`), not only
comment lines and malformed rows. -/
theorem spec_C9_cex :
    load_oeis_data (Except.ok "3 7") = Except.ok [] ∧
    parseRow "3 7" = some (3, 7) ∧
    ¬ (([] : List (Int × Int)).any (fun e => e.1 == 7) = true) := by
  refine ⟨rfl, rfl, by decide⟩

/-- C9 (amended): on network failure `load_oeis_data` raises the
distinguishable RuntimeError instead of returning; on success it returns
a value → index mapping containing an entry for every well-formed data
row located after the first line (which is skipped unconditionally);
comment lines and malformed rows are skipped. -/
theorem spec_C9 :
    load_oeis_data (Except.error ()) = Except.error () ∧
    ∀ text m, load_oeis_data (Except.ok text) = Except.ok m →
      ∀ line ∈ (pySplitlines text).drop 1, ∀ i v,
        parseRow line = some (i, v) →
        m.any (fun e => e.1 == v) = true := by
  refine ⟨rfl, ?_⟩
  intro text m hm line hline i v hrow
  have hm' : m = ((pySplitlines text).drop 1).foldl oeisStep [] := by
    unfold load_oeis_data at hm
    exact (Option.some_inj.mp (congrArg Except.toOption hm)).symm
  rw [hm']
  exact oeisFold_covers hline hrow

/-- Witness for C9 on the table "h\n3 7": the second line "3 7" is
well-formed and its value 7 receives an entry. -/
theorem spec_C9_witness :
    ([((7 : Int), (3 : Int))].any (fun e => e.1 == 7) = true) :=
  spec_C9.2 "h\n3 7" [(7, 3)] rfl "3 7" (by decide) 3 7 rfl

/-! ## 1_19.py: stabilization analyzer, longest-run mode -/

/-- The column predictor `predicted = n * (n + 2*(k-1))` at 0-based
position i (so n = i + 1). -/
def predVal (k i : Nat) : Int := ((i + 1) * (i + 1 + 2 * (k - 1)) : Nat)

/-- The loop state of `analyze_columns`: longest_len, longest_run_start,
current_start, current_len (longest_run_end is derived and omitted). -/
structure RunState where
  longestLen : Nat
  longestStart : Option Nat
  currentStart : Option Nat
  currentLen : Nat
deriving Repr, DecidableEq

/-- One iteration of the run-finding loop of `analyze_columns`: on a
predictor match extend the current run (starting it at n = i+1 when
`current_start is None`); on a mismatch promote the current run to
longest if strictly longer, then reset. -/
def runStep (k : Nat) (s : RunState) (i : Nat) (x : Int) : RunState :=
  if x = predVal k i then
    { s with currentStart := some (s.currentStart.getD (i + 1)),
             currentLen := s.currentLen + 1 }
  else if s.longestLen < s.currentLen then
    ⟨s.currentLen, s.currentStart, none, 0⟩
  else
    { s with currentStart := none, currentLen := 0 }

/-- The `for i, x_val in enumerate(col)` loop. -/
def runLoop (k : Nat) : RunState → Nat → List Int → RunState
  | s, _, [] => s
  | s, i, x :: rest => runLoop k (runStep k s i x) (i + 1) rest

/-- The longest matching run of a column, including the final
`if current_len > longest_len` check: (run length, 1-based start). -/
def longestRun (k : Nat) (col : List Int) : Nat × Option Nat :=
  let s := runLoop k ⟨0, none, none, 0⟩ 0 col
  if s.longestLen < s.currentLen then (s.currentLen, s.currentStart)
  else (s.longestLen, s.longestStart)

/-- Python `sorted(set(l))`. -/
def sortDedup (l : List Int) : List Int := (l.dedup).insertionSort (· ≤ ·)

/-- The per-column body of `analyze_columns`: run length, stabilization
start, and the sorted deduplicated irregular values strictly before the
run start.  When the column is non-empty and no position matches the
predictor, `longest_run_start` is Python's `None` and the comprehension
guard `(i+1) < longest_run_start` raises TypeError on its first
evaluation, modelled by `Except.error`. -/
def analyzeColumn (k : Nat) (col : List Int) :
    Except Unit (Nat × Option Nat × List Int) :=
  match longestRun k col with
  | (len, none) =>
    if col.isEmpty then Except.ok (len, none, [])
    else Except.error ()
  | (len, some st) =>
    Except.ok (len, some st,
      sortDedup (col.enum.filterMap (fun q =>
        if q.1 + 1 < st ∧ ¬ (q.2 = predVal k q.1) then some q.2 else none)))

/-- Embeds `analyze_columns`: `for idx, col in
enumerate(columns[:k_max], start=1)`, skipping idx ≤ 3; a `k_max` of
`None` defaults to the number of columns.  Each surviving column
contributes results[k] = (run_length, stabilization_n,
irregular_prefix); any TypeError escapes the whole call. -/
def analyze_columns (columns : List (List Int)) (kmaxArg : Option Nat) :
    Except Unit (List (Nat × Nat × Option Nat × List Int)) :=
  ((columns.take (kmaxArg.getD columns.length)).enum.filterMap
    (fun q => if q.1 + 1 ≤ 3 then none else some (q.1 + 1, q.2))).mapM
    (fun e =>
      match analyzeColumn e.1 e.2 with
      | Except.error u => Except.error u
      | Except.ok r => Except.ok (e.1, r))

/-- The match indicator list of a column for column index k: position i
holds `true` iff the entry equals the predictor value. -/
def matchList (k : Nat) (col : List Int) : List Bool :=
  col.enum.map (fun q => decide (q.2 = predVal k q.1))

/-- A maximal contiguous run of matching positions of the indicator
list b: positions s, ..., s+l-1 (0-based) all match and the run extends
on neither side; positions outside b count as non-matching. -/
def IsRun (b : List Bool) (s l : Nat) : Prop :=
  0 < l ∧ s + l ≤ b.length ∧
  (∀ j, s ≤ j → j < s + l → b.getD j false = true) ∧
  (s = 0 ∨ b.getD (s - 1) false = false) ∧
  b.getD (s + l) false = false

/-- A maximal matching run that is already terminated strictly inside
the first t positions (its closing mismatch lies below t). -/
def CRun (b : List Bool) (t s l : Nat) : Prop :=
  0 < l ∧ s + l < t ∧
  (∀ j, s ≤ j → j < s + l → b.getD j false = true) ∧
  (s = 0 ∨ b.getD (s - 1) false = false) ∧
  b.getD (s + l) false = false

/-- What (longest_len, longest_run_start) means after the first t
positions: nothing recorded iff no run has terminated yet, otherwise
the first-occurring terminated run of maximal length. -/
def Best (b : List Bool) (t L : Nat) (st : Option Nat) : Prop :=
  (L = 0 → st = none ∧ ∀ s l, ¬ CRun b t s l) ∧
  (0 < L → ∃ s0, st = some (s0 + 1) ∧ CRun b t s0 L ∧
    (∀ s l, CRun b t s l → l ≤ L) ∧ (∀ s, CRun b t s L → s0 ≤ s))

/-- Length of the maximal all-true suffix of the first t positions. -/
def suffRun (b : List Bool) : Nat → Nat
  | 0 => 0
  | t + 1 => if b.getD t false then suffRun b t + 1 else 0

/-- The loop invariant of the run-finding loop after t positions. -/
def LoopInv (b : List Bool) (t : Nat) (s : RunState) : Prop :=
  s.currentLen = suffRun b t ∧
  s.currentStart = (if suffRun b t = 0 then none
                    else some (t - suffRun b t + 1)) ∧
  Best b t s.longestLen s.longestStart

/-! ## Facts about suffix runs -/

theorem suffRun_succ (b : List Bool) (t : Nat) :
    suffRun b (t + 1) = if b.getD t false then suffRun b t + 1 else 0 := rfl

theorem suffRun_le (b : List Bool) : ∀ t, suffRun b t ≤ t
  | 0 => Nat.le_refl 0
  | t + 1 => by
    unfold suffRun
    split
    · exact Nat.succ_le_succ (suffRun_le b t)
    · exact Nat.zero_le _

theorem suffRun_true (b : List Bool) :
    ∀ t, ∀ j, t - suffRun b t ≤ j → j < t → b.getD j false = true := by
  intro t
  induction t with
  | zero => intro j h1 h2; omega
  | succ t ih =>
    intro j h1 h2
    cases hg : b.getD t false with
    | true =>
      have hs : suffRun b (t + 1) = suffRun b t + 1 := by rw [suffRun_succ, hg]; simp
      rcases Nat.lt_or_ge j t with hlt | hge
      · apply ih j _ hlt
        have := suffRun_le b t
        omega
      · have : j = t := by omega
        subst this
        exact hg
    | false =>
      have hs : suffRun b (t + 1) = 0 := by rw [suffRun_succ, hg]; simp
      omega

theorem suffRun_bd (b : List Bool) :
    ∀ t, suffRun b t = t ∨ b.getD (t - suffRun b t - 1) false = false := by
  intro t
  induction t with
  | zero => exact Or.inl rfl
  | succ t ih =>
    cases hg : b.getD t false with
    | true =>
      have hs : suffRun b (t + 1) = suffRun b t + 1 := by rw [suffRun_succ, hg]; simp
      have hle := suffRun_le b t
      rcases ih with h | h
      · exact Or.inl (by omega)
      · right
        rw [hs, show t + 1 - (suffRun b t + 1) - 1 = t - suffRun b t - 1 by omega]
        exact h
    | false =>
      have hs : suffRun b (t + 1) = 0 := by rw [suffRun_succ, hg]; simp
      right
      rw [hs, show t + 1 - 0 - 1 = t by omega]
      exact hg

theorem suffRun_ge (b : List Bool) :
    ∀ t l, l ≤ t → (∀ j, t - l ≤ j → j < t → b.getD j false = true) →
      l ≤ suffRun b t := by
  intro t
  induction t with
  | zero => intro l h1 _; omega
  | succ t ih =>
    intro l h1 h2
    rcases Nat.eq_zero_or_pos l with rfl | hl
    · omega
    · have hg : b.getD t false = true := h2 t (by omega) (by omega)
      have hs : suffRun b (t + 1) = suffRun b t + 1 := by rw [suffRun_succ, hg]; simp
      have := ih (l - 1) (by omega) (fun j hj1 hj2 => h2 j (by omega) (by omega))
      omega

/-! ## Characterizing terminated runs across one step -/

theorem crun_succ_iff {b : List Bool} {t s l : Nat} :
    CRun b (t + 1) s l ↔
      CRun b t s l ∨
        (b.getD t false = false ∧ 0 < l ∧ l = suffRun b t ∧ s = t - l) := by
  constructor
  · rintro ⟨hl, hst, hall, hleft, hright⟩
    rcases Nat.lt_or_ge (s + l) t with hlt | hge
    · exact Or.inl ⟨hl, hlt, hall, hleft, hright⟩
    · have hsl : s + l = t := by omega
      have hsf_le := suffRun_le b t
      have hge' : l ≤ suffRun b t := by
        apply suffRun_ge b t l (by omega)
        intro j hj1 hj2
        exact hall j (by omega) (by omega)
      have hle' : suffRun b t ≤ l := by
        by_contra hcon
        push_neg at hcon
        have hs_pos : 0 < s := by
          rcases Nat.eq_zero_or_pos s with rfl | h
          · omega
          · exact h
        have htrue : b.getD (s - 1) false = true := by
          apply suffRun_true b t
          · omega
          · omega
        rcases hleft with h0 | hfalse
        · omega
        · rw [htrue] at hfalse
          cases hfalse
      right
      refine ⟨by rwa [hsl] at hright, hl, by omega, by omega⟩
  · rintro (⟨hl, hst, hall, hleft, hright⟩ | ⟨hg, hl, hsuff, hs⟩)
    · exact ⟨hl, by omega, hall, hleft, hright⟩
    · have hle := suffRun_le b t
      refine ⟨hl, by omega, ?_, ?_, ?_⟩
      · intro j hj1 hj2
        apply suffRun_true b t
        · omega
        · omega
      · rcases suffRun_bd b t with h | h
        · left
          omega
        · right
          rw [show s - 1 = t - suffRun b t - 1 by omega]
          exact h
      · rw [show s + l = t by omega]
        exact hg

theorem best_bound {b : List Bool} {t L : Nat} {st : Option Nat}
    (hB : Best b t L st) {s l : Nat} (h : CRun b t s l) : l ≤ L := by
  rcases Nat.eq_zero_or_pos L with rfl | hL
  · exact absurd h ((hB.1 rfl).2 s l)
  · obtain ⟨s0, _, _, h3, _⟩ := hB.2 hL
    exact h3 s l h

theorem best_congr {b : List Bool} {t t' L : Nat} {st : Option Nat}
    (hiff : ∀ s l, CRun b t' s l ↔ CRun b t s l)
    (hB : Best b t L st) : Best b t' L st := by
  constructor
  · intro h0
    exact ⟨(hB.1 h0).1, fun s l hc => (hB.1 h0).2 s l ((hiff s l).mp hc)⟩
  · intro hL
    obtain ⟨s0, h1, h2, h3, h4⟩ := hB.2 hL
    exact ⟨s0, h1, (hiff s0 L).mpr h2,
      fun s l hc => h3 s l ((hiff s l).mp hc),
      fun s hc => h4 s ((hiff s L).mp hc)⟩

/-! ## The loop invariant is preserved -/

theorem inv_step_true {b : List Bool} {t : Nat} {s : RunState}
    (hg : b.getD t false = true) (hInv : LoopInv b t s) :
    LoopInv b (t + 1)
      ⟨s.longestLen, s.longestStart,
       some (s.currentStart.getD (t + 1)), s.currentLen + 1⟩ := by
  obtain ⟨hc, hcs, hB⟩ := hInv
  have hs : suffRun b (t + 1) = suffRun b t + 1 := by rw [suffRun_succ, hg]; simp
  have hle := suffRun_le b t
  refine ⟨?_, ?_, ?_⟩
  · show s.currentLen + 1 = suffRun b (t + 1)
    rw [hs, hc]
  · show some (s.currentStart.getD (t + 1)) =
      (if suffRun b (t + 1) = 0 then none
       else some (t + 1 - suffRun b (t + 1) + 1))
    rw [hcs, hs]
    rcases Nat.eq_zero_or_pos (suffRun b t) with h0 | hpos
    · rw [h0]
      simp
    · rw [if_neg (by omega), if_neg (by omega), Option.getD_some]
      simp only [Option.some_inj]
      omega
  · show Best b (t + 1) s.longestLen s.longestStart
    apply best_congr _ hB
    intro s' l'
    rw [crun_succ_iff]
    constructor
    · rintro (h | ⟨hfalse, _⟩)
      · exact h
      · rw [hg] at hfalse
        cases hfalse
    · exact Or.inl

theorem inv_step_false {b : List Bool} {t : Nat} {s : RunState}
    (hg : b.getD t false = false) (hInv : LoopInv b t s) :
    LoopInv b (t + 1)
      (if s.longestLen < s.currentLen then ⟨s.currentLen, s.currentStart, none, 0⟩
       else ⟨s.longestLen, s.longestStart, none, 0⟩) := by
  obtain ⟨hc, hcs, hB⟩ := hInv
  have hs : suffRun b (t + 1) = 0 := by rw [suffRun_succ, hg]; simp
  have hle := suffRun_le b t
  have hiff : ∀ s' l', CRun b (t + 1) s' l' ↔
      CRun b t s' l' ∨ (0 < l' ∧ l' = suffRun b t ∧ s' = t - l') := by
    intro s' l'
    rw [crun_succ_iff]
    constructor
    · rintro (h | ⟨_, h1, h2, h3⟩)
      · exact Or.inl h
      · exact Or.inr ⟨h1, h2, h3⟩
    · rintro (h | ⟨h1, h2, h3⟩)
      · exact Or.inl h
      · exact Or.inr ⟨hg, h1, h2, h3⟩
  split
  · rename_i hcmp
    rw [hc] at hcmp
    refine ⟨?_, ?_, ?_⟩
    · show (0 : Nat) = suffRun b (t + 1)
      omega
    · show (none : Option Nat) =
        (if suffRun b (t + 1) = 0 then none
         else some (t + 1 - suffRun b (t + 1) + 1))
      rw [hs]
      simp
    · show Best b (t + 1) s.currentLen s.currentStart
      constructor
      · intro h0
        omega
      · intro _
        refine ⟨t - suffRun b t, ?_, ?_, ?_, ?_⟩
        · rw [hcs, if_neg (by omega)]
        · rw [hc]
          exact (hiff _ _).mpr (Or.inr ⟨by omega, rfl, rfl⟩)
        · intro s' l' hcr
          rcases (hiff s' l').mp hcr with h | ⟨_, h2, _⟩
          · have := best_bound hB h
            omega
          · rw [hc]
            omega
        · intro s' hcr
          rw [hc] at hcr
          rcases (hiff s' _).mp hcr with h | ⟨_, _, h3⟩
          · have := best_bound hB h
            omega
          · omega
  · rename_i hcmp
    rw [hc] at hcmp
    push_neg at hcmp
    refine ⟨?_, ?_, ?_⟩
    · show (0 : Nat) = suffRun b (t + 1)
      omega
    · show (none : Option Nat) =
        (if suffRun b (t + 1) = 0 then none
         else some (t + 1 - suffRun b (t + 1) + 1))
      rw [hs]
      simp
    · show Best b (t + 1) s.longestLen s.longestStart
      constructor
      · intro h0
        obtain ⟨hst, hnone⟩ := hB.1 h0
        refine ⟨hst, fun s' l' hcr => ?_⟩
        rcases (hiff s' l').mp hcr with h | ⟨h1, h2, _⟩
        · exact hnone s' l' h
        · omega
      · intro hL
        obtain ⟨s0, h1, h2, h3, h4⟩ := hB.2 hL
        refine ⟨s0, h1, (hiff s0 _).mpr (Or.inl h2), ?_, ?_⟩
        · intro s' l' hcr
          rcases (hiff s' l').mp hcr with h | ⟨_, h2', _⟩
          · exact h3 s' l' h
          · omega
        · intro s' hcr
          rcases (hiff s' _).mp hcr with h | ⟨_, h2', h3'⟩
          · exact h4 s' h
          · have := h2.2.1
            omega

/-! ## From the loop to the longest run -/

theorem matchList_length (k : Nat) (col : List Int) :
    (matchList k col).length = col.length := by
  simp [matchList]

theorem matchList_getD {k : Nat} {col : List Int} {i : Nat}
    (h : i < col.length) :
    (matchList k col).getD i false = decide (col.getD i 0 = predVal k i) := by
  unfold matchList
  rw [List.getD_eq_getElem?_getD, List.getElem?_map, List.getElem?_enum,
    List.getElem?_eq_getElem h]
  simp [List.getD_eq_getElem?_getD, List.getElem?_eq_getElem h]

theorem runLoop_inv {k : Nat} {col : List Int} :
    ∀ (rest : List Int) (i : Nat) (s : RunState),
      col.drop i = rest → i ≤ col.length → LoopInv (matchList k col) i s →
      LoopInv (matchList k col) col.length (runLoop k s i rest) := by
  intro rest
  induction rest with
  | nil =>
    intro i s hdrop hle hInv
    have hlen : col.length - i = 0 := by
      have := congrArg List.length hdrop
      rw [List.length_drop] at this
      exact this
    have : i = col.length := by omega
    subst this
    exact hInv
  | cons x rest' ih =>
    intro i s hdrop hle hInv
    have hi : i < col.length := by
      have := congrArg List.length hdrop
      rw [List.length_drop] at this
      simp at this
      omega
    have hx : col.getD i 0 = x := by
      have h0 : (col.drop i)[0]? = some x := by rw [hdrop]; simp
      rw [List.getElem?_drop] at h0
      have h0' : col[i]? = some x := by simpa using h0
      simp [List.getD_eq_getElem?_getD, h0']
    have hdrop' : col.drop (i + 1) = rest' := by
      have ht := List.tail_drop col i
      rw [hdrop] at ht
      exact ht.symm
    have hstep : LoopInv (matchList k col) (i + 1) (runStep k s i x) := by
      unfold runStep
      by_cases hpred : x = predVal k i
      · rw [if_pos hpred]
        have hg : (matchList k col).getD i false = true := by
          rw [matchList_getD hi, hx]
          simp [hpred]
        exact inv_step_true hg hInv
      · rw [if_neg hpred]
        have hg : (matchList k col).getD i false = false := by
          rw [matchList_getD hi, hx]
          simp [hpred]
        exact inv_step_false hg hInv
    rw [runLoop]
    exact ih (i + 1) (runStep k s i x) hdrop' (by omega) hstep

theorem longestRun_best (k : Nat) (col : List Int) :
    Best (matchList k col) (col.length + 1)
      (longestRun k col).1 (longestRun k col).2 := by
  have hinit : LoopInv (matchList k col) 0 ⟨0, none, none, 0⟩ := by
    refine ⟨rfl, rfl, ?_, ?_⟩
    · intro _
      refine ⟨rfl, fun s l hc => ?_⟩
      obtain ⟨_, h2, _⟩ := hc
      omega
    · intro h
      simp at h
  have hfin := runLoop_inv col 0 ⟨0, none, none, 0⟩ (List.drop_zero col)
    (Nat.zero_le _) hinit
  have hg : (matchList k col).getD col.length false = false := by
    apply List.getD_eq_default
    rw [matchList_length]
  have hstep := inv_step_false hg hfin
  have hlr : longestRun k col =
      (if (runLoop k ⟨0, none, none, 0⟩ 0 col).longestLen <
          (runLoop k ⟨0, none, none, 0⟩ 0 col).currentLen then
        ((runLoop k ⟨0, none, none, 0⟩ 0 col).currentLen,
         (runLoop k ⟨0, none, none, 0⟩ 0 col).currentStart)
      else
        ((runLoop k ⟨0, none, none, 0⟩ 0 col).longestLen,
         (runLoop k ⟨0, none, none, 0⟩ 0 col).longestStart)) := rfl
  rcases Nat.lt_or_ge (runLoop k ⟨0, none, none, 0⟩ 0 col).longestLen
      (runLoop k ⟨0, none, none, 0⟩ 0 col).currentLen with hcmp | hcmp
  · rw [if_pos hcmp] at hstep
    rw [hlr, if_pos hcmp]
    exact hstep.2.2
  · rw [if_neg (by omega)] at hstep
    rw [hlr, if_neg (by omega)]
    exact hstep.2.2

theorem isRun_iff_crun {b : List Bool} {s l : Nat} :
    IsRun b s l ↔ CRun b (b.length + 1) s l := by
  unfold IsRun CRun
  constructor
  · rintro ⟨h1, h2, h3, h4, h5⟩
    exact ⟨h1, by omega, h3, h4, h5⟩
  · rintro ⟨h1, h2, h3, h4, h5⟩
    exact ⟨h1, by omega, h3, h4, h5⟩

/-! ## Claims C3 and C7 -/

/-- C3 (amended): whenever the longest-run mode reports a result for a
column (a non-empty column with no matching position raises instead,
see C7), the reported stabilization start st is the 1-based start of
the first-occurring longest contiguous run of predictor-matching
positions (ties broken by first occurrence), and the reported irregular
prefix is the deduplicated, sorted list of the predictor-violating
entries strictly before that start — entries before the run start that
happen to match the predictor are excluded. -/
theorem spec_C3 (k : Nat) (col : List Int) (len st : Nat) (irr : List Int)
    (h : analyzeColumn k col = Except.ok (len, some st, irr)) :
    (∃ s0, st = s0 + 1 ∧ IsRun (matchList k col) s0 len ∧
      (∀ s' l', IsRun (matchList k col) s' l' → l' ≤ len) ∧
      (∀ s', IsRun (matchList k col) s' len → s0 ≤ s')) ∧
    irr = sortDedup (col.enum.filterMap (fun q =>
      if q.1 + 1 < st ∧ ¬ (q.2 = predVal k q.1) then some q.2 else none)) := by
  have hbest := longestRun_best k col
  unfold analyzeColumn at h
  rcases hlr : longestRun k col with ⟨len', st'⟩
  rw [hlr] at h hbest
  rcases st' with _ | st''
  · dsimp only at h
    split at h
    · simp at h
    · simp at h
  · dsimp only at h hbest
    simp only [Except.ok.injEq, Prod.mk.injEq, Option.some.injEq] at h
    obtain ⟨h1, h2, h3⟩ := h
    have hiff : ∀ s l, IsRun (matchList k col) s l ↔
        CRun (matchList k col) (col.length + 1) s l := by
      intro s l
      rw [isRun_iff_crun, matchList_length]
    rw [← h1, ← h2]
    rcases Nat.eq_zero_or_pos len' with hz | hpos
    · have := (hbest.1 hz).1
      simp at this
    · obtain ⟨s0, hst, hcr, hbd, hfirst⟩ := hbest.2 hpos
      refine ⟨⟨s0, by simpa using hst, (hiff _ _).mpr hcr,
        fun s' l' h' => hbd s' l' ((hiff _ _).mp h'),
        fun s' h' => hfirst s' ((hiff _ _).mp h')⟩, h3.symm⟩

/-- Modelled from the spec's words (§4.4, mode (b)), for comparison
with the code: the deduplicated, sorted list of every entry at a
position strictly before the start of the longest run, not only the
predictor-violating ones. -/
def specRunIrregulars (k : Nat) (col : List Int) : Option (List Int) :=
  match longestRun k col with
  | (_, none) => none
  | (_, some st) =>
    some (sortDedup (col.enum.filterMap (fun q =>
      if q.1 + 1 < st then some q.2 else none)))

/-- Counterexample for C3: column [7, 0, 27, 40, 55] for k = 4 matches
the predictor n(n+6) at positions 1, 3, 4, 5; the longest run starts at
n = 3, and before it sit the entries 7 (matching) and 0 (violating).
The claim's irregular prefix — every entry before the run start,
deduplicated and sorted — would be [0, 7]; the code reports [0]. -/
theorem spec_C3_cex :
    analyzeColumn 4 [7, 0, 27, 40, 55] = Except.ok (3, some 3, [0]) ∧
    specRunIrregulars 4 [7, 0, 27, 40, 55] = some [0, 7] ∧
    ([0] : List Int) ≠ [0, 7] := ⟨rfl, rfl, by decide⟩

/-- Witness for C3 on column [7, 0, 27, 40, 55] with k = 4, where the
analyzer reports run length 3, start 3, irregular prefix [0]. -/
theorem spec_C3_witness :
    (∃ s0, 3 = s0 + 1 ∧ IsRun (matchList 4 [7, 0, 27, 40, 55]) s0 3 ∧
      (∀ s' l', IsRun (matchList 4 [7, 0, 27, 40, 55]) s' l' → l' ≤ 3) ∧
      (∀ s', IsRun (matchList 4 [7, 0, 27, 40, 55]) s' 3 → s0 ≤ s')) ∧
    ([0] : List Int) = sortDedup (([7, 0, 27, 40, 55] : List Int).enum.filterMap
      (fun q => if q.1 + 1 < 3 ∧ ¬ (q.2 = predVal 4 q.1) then some q.2
                else none)) :=
  spec_C3 4 [7, 0, 27, 40, 55] 3 3 [0] rfl

/-- C7 (code bug): `analyze_columns` on the columns [[0],[0],[0],[1]]
with k_max = 4 lets an error escape the operation instead of producing
a defined "no result": column 4 = [1] is non-empty and none of its
entries matches the predictor (1 ≠ 1·(1+6) = 7), so
`longest_run_start` is still Python's None when the irregular-prefix
comprehension evaluates `(i+1) < longest_run_start`, raising TypeError. -/
theorem spec_C7 :
    analyze_columns [[0], [0], [0], [1]] (some 4) = Except.error () ∧
    analyzeColumn 4 [1] = Except.error () ∧
    ¬ ((1 : Int) = predVal 4 0) := ⟨rfl, rfl, by decide⟩
